import Mathlib

/-!
Verification of the hulomind retrieval core.

Shallow embedding of the markdown chunker (src/processors/markdown_processor.py),
the in-memory vector store (src/vectorstore/memory_store.py) and the multi-round
retrieval orchestrator (src/services/knowledge_service.py).

Python strings are modelled as lists of characters, Python ints as Nat/Int, and
float scores as exact rationals.  Comparisons against the float constants 0.7
and 1.5 are modelled exactly (cross-multiplied); an IEEE NaN produced by the
unguarded cosine division is modelled by the value none of Option Rat.
-/

namespace Hulomind

attribute [local semireducible] Rat.mul Rat.inv Rat.add Rat.sub

/-- Python str, modelled as a list of characters. -/
abbrev Str := List Char

/-- Python str.strip() character class (whitespace). -/
def isPySpace (c : Char) : Bool :=
  c == ' ' || c == '\t' || c == '\n' || c == '\r' || c == Char.ofNat 11 || c == Char.ofNat 12

/-- Python s.strip(): drop whitespace from both ends. -/
def pyStrip (s : Str) : Str :=
  ((s.dropWhile isPySpace).reverse.dropWhile isPySpace).reverse

/-- Python s.lstrip(lead-hash): drop leading hash marks. -/
def lstripHash (s : Str) : Str := s.dropWhile (· == '#')

/-- Python newline-join of a list of lines (the inverse of str.split on newline). -/
def joinLines : List Str → Str
  | [] => []
  | [l] => l
  | l :: rest => l ++ '\n' :: joinLines rest

/-- Python s.split on a newline separator.  The empty string yields one empty line. -/
def splitLines : Str → List Str
  | [] => [[]]
  | c :: rest =>
    let r := splitLines rest
    if c = '\n' then [] :: r
    else (c :: r.headI) :: r.tail

/-- Default settings.chunk_size (src/config/settings.py). -/
def settingsChunkSize : ℕ := 1000

/-- Default settings.chunk_overlap (src/config/settings.py). -/
def settingsChunkOverlap : ℕ := 200

/-! ### Chunker state (the accumulating loops of the two split routines) -/

/-- Loop state of _simple_split_chunks and _split_large_section:
the emitted chunks, the accumulating current chunk lines, and its running size. -/
structure SplitState where
  chunks : List Str
  cur : List Str
  size : ℕ
deriving DecidableEq

/-- Greedy trailing-overlap collection.  The argument list holds the candidate
lines in reverse order (last line first), mirroring the Python loop that walks
indices backwards and stops at the first line that does not fit the overlap
budget; the returned lines are in original order (the Python insert at 0),
together with the accumulated overlap size. -/
def takeOverlapRev (budget : ℕ) : List Str → ℕ → List Str × ℕ
  | [], acc => ([], acc)
  | l :: rest, acc =>
    if acc + l.length + 1 ≤ budget then
      let p := takeOverlapRev budget rest (acc + l.length + 1)
      (p.1 ++ [l], p.2)
    else ([], acc)

/-- The reversed candidate window of the sub-split overlap: the Python loop is
over range(len-1, max(0, len-3), -1), whose element count is
(len-1) - max(0, len-3); truncated Nat subtraction computes exactly that. -/
def subSplitWindow (cur : List Str) : List Str :=
  cur.reverse.take ((cur.length - 1) - (cur.length - 3))

/-- One line of the _split_large_section loop: an optional sub-header cut
(line.strip().startswith three hash marks, nonempty current chunk, and
current_size > chunk_size * 0.7, modelled exactly as 7 * cs < 10 * size),
then an optional size cut seeding the overlap window, then the line is
appended. -/
def slsStep (cs co : ℕ) (st : SplitState) (line : Str) : SplitState :=
  let st1 :=
    if ['#', '#', '#'].isPrefixOf (pyStrip line) && !st.cur.isEmpty
        && decide (7 * cs < 10 * st.size) then
      { chunks := st.chunks ++ [joinLines st.cur], cur := [], size := 0 }
    else st
  let st2 :=
    if decide (cs < st1.size + (line.length + 1)) && !st1.cur.isEmpty then
      let ov := takeOverlapRev co (subSplitWindow st1.cur) 0
      { chunks := st1.chunks ++ [joinLines st1.cur], cur := ov.1, size := ov.2 }
    else st1
  { chunks := st2.chunks, cur := st2.cur ++ [line], size := st2.size + (line.length + 1) }

/-- MarkdownProcessor._split_large_section. -/
def splitLargeSection (sectionLines : List Str) (cs co : ℕ) : List Str :=
  let st := sectionLines.foldl (slsStep cs co) ⟨[], [], 0⟩
  if st.cur.isEmpty then st.chunks else st.chunks ++ [joinLines st.cur]

/-- One line of the _simple_split_chunks loop: a size cut whose overlap window
walks all previous lines (range(len-1, -1, -1)), then the line is appended. -/
def simpleStep (cs co : ℕ) (st : SplitState) (line : Str) : SplitState :=
  let st2 :=
    if decide (cs < st.size + (line.length + 1)) && !st.cur.isEmpty then
      let ov := takeOverlapRev co st.cur.reverse 0
      { chunks := st.chunks ++ [joinLines st.cur], cur := ov.1, size := ov.2 }
    else st
  { chunks := st2.chunks, cur := st2.cur ++ [line], size := st2.size + (line.length + 1) }

/-- MarkdownProcessor._simple_split_chunks. -/
def simpleSplitChunks (content : Str) (cs co : ℕ) : List Str :=
  let st := (splitLines content).foldl (simpleStep cs co) ⟨[], [], 0⟩
  if st.cur.isEmpty then st.chunks else st.chunks ++ [joinLines st.cur]

/-- A recorded header line: its line index and level.  The header text and raw
line are also recorded by the Python dict but never used by the split logic. -/
structure HeaderPos where
  index : ℕ
  level : ℕ
deriving DecidableEq

instance : Inhabited HeaderPos := ⟨⟨0, 0⟩⟩

/-- Header scan of split_into_chunks: a line whose stripped form starts with a
hash mark, with level measured on the raw line as len(line) - len(line.lstrip).  -/
def headerPositions (lines : List Str) : List HeaderPos :=
  lines.enum.filterMap fun p =>
    if ['#'].isPrefixOf (pyStrip p.2) then
      some ⟨p.1, p.2.length - (lstripHash p.2).length⟩
    else none

/-- End line of the section of header i: the index of the first later header of
level at most that of header i, else the total line count. -/
def sectionEnd (headers : List HeaderPos) (total : ℕ) (i : ℕ) : ℕ :=
  match (headers.drop (i + 1)).find? (fun h2 => h2.level ≤ (headers.getD i default).level) with
  | some h2 => h2.index
  | none => total

/-- MarkdownProcessor.split_into_chunks: header-based sections, each split
further when longer than chunk_size * 1.5 (modelled exactly as
3 * cs < 2 * length), with the size-based fallback when no header exists. -/
def splitIntoChunks (content : Str) (cs co : ℕ) : List Str :=
  let lines := splitLines content
  let headers := headerPositions lines
  if headers.isEmpty then simpleSplitChunks content cs co
  else
    (List.range headers.length).flatMap fun i =>
      let h := headers.getD i default
      let endLine := sectionEnd headers lines.length i
      let sectionLines := (lines.drop h.index).take (endLine - h.index)
      let sectionContent := joinLines sectionLines
      if 3 * cs < 2 * sectionContent.length then splitLargeSection sectionLines cs co
      else [sectionContent]

/-! ### Documents and chunks -/

/-- Modelled from the spec: src/models/document.py is not present under src/;
the Document record follows section 3 of the spec (identifier, title, body
text, language, category, tags, source path; timestamps omitted as they never
enter the core logic). -/
structure Document where
  id : Str
  title : Str
  content : Str
  language : Str
  category : Str
  tags : List Str
  file_path : Str
deriving DecidableEq

/-- Modelled from the spec: src/models/document.py is not present under src/;
the DocumentChunk record follows section 3 of the spec, with the metadata map
flattened to the three keys create_chunks stores (title, tags, file_path). -/
structure DocumentChunk where
  id : Str
  document_id : Str
  content : Str
  language : Str
  category : Str
  chunk_index : ℕ
  start_pos : ℤ
  end_pos : ℤ
  title : Str
  tags : List Str
  file_path : Str
deriving DecidableEq

instance : Inhabited DocumentChunk := ⟨⟨[], [], [], [], [], 0, 0, 0, [], [], []⟩⟩

/-- Python hay.find(pat) as an option: index of the first occurrence of pat. -/
def strFind : Str → Str → Option ℕ
  | hay, pat =>
    if pat.isPrefixOf hay then some 0
    else
      match hay with
      | [] => none
      | _ :: t => (strFind t pat).map (· + 1)

/-- Python hay.find(pat) proper: -1 when the pattern does not occur. -/
def strFindInt (hay pat : Str) : ℤ :=
  match strFind hay pat with
  | some j => (j : ℤ)
  | none => -1

/-- Number of occurrence positions of pat in hay. -/
def occCount (hay pat : Str) : ℕ :=
  ((List.range (hay.length + 1)).filter (fun i => pat.isPrefixOf (hay.drop i))).length

/-- Python slice index normalization for s of length n. -/
def pyIdx (n : ℕ) (i : ℤ) : ℕ :=
  if i < 0 then (max 0 ((n : ℤ) + i)).toNat else min i.toNat n

/-- Python s[a:b]. -/
def pySlice (s : Str) (a b : ℤ) : Str :=
  (s.take (pyIdx s.length b)).drop (pyIdx s.length a)

/-- Decimal digits of a natural number, for the chunk id suffix. -/
def natToChars (n : ℕ) : Str := (Nat.repr n).data

/-- The chunk record built by MarkdownProcessor.create_chunks for the chunk at
enumerate position i with running kept-chunk count k. -/
def mkChunk (doc : Document) (i k : ℕ) (content : Str) : DocumentChunk :=
  { id := doc.id ++ ['_', 'c', 'h', 'u', 'n', 'k', '_'] ++ natToChars i
    document_id := doc.id
    content := content
    language := doc.language
    category := doc.category
    chunk_index := k
    start_pos := strFindInt doc.content content
    end_pos := strFindInt doc.content content + content.length
    title := doc.title
    tags := doc.tags
    file_path := doc.file_path }

/-- The enumerate loop of create_chunks: i is the enumerate index, k the count
of chunks kept so far; whitespace-only chunk texts are skipped. -/
def ccLoop (doc : Document) : List Str → ℕ → ℕ → List DocumentChunk
  | [], _, _ => []
  | c :: rest, i, k =>
    if pyStrip c = [] then ccLoop doc rest (i + 1) k
    else mkChunk doc i k c :: ccLoop doc rest (i + 1) (k + 1)

/-- MarkdownProcessor.create_chunks (split_into_chunks is called with the
settings defaults). -/
def createChunks (doc : Document) : List DocumentChunk :=
  ccLoop doc (splitIntoChunks doc.content settingsChunkSize settingsChunkOverlap) 0 0

/-! ### Lemmas about the overlap window -/

/-- The collected overlap is a reversed prefix of the reversed-line window. -/
theorem takeOverlapRev_shape (b : ℕ) :
    ∀ (rl : List Str) (acc : ℕ), ∃ m, (takeOverlapRev b rl acc).1 = (rl.take m).reverse
  | [], _ => ⟨0, rfl⟩
  | l :: rest, acc => by
    by_cases h : acc + l.length + 1 ≤ b
    · obtain ⟨m, hm⟩ := takeOverlapRev_shape b rest (acc + l.length + 1)
      exact ⟨m + 1, by simp [takeOverlapRev, h, hm]⟩
    · exact ⟨0, by simp [takeOverlapRev, h]⟩

/-- The accumulated overlap size never exceeds the budget. -/
theorem takeOverlapRev_size_le (b : ℕ) :
    ∀ (rl : List Str) (acc : ℕ), acc ≤ b → (takeOverlapRev b rl acc).2 ≤ b
  | [], _, h => h
  | l :: rest, acc, h => by
    by_cases hf : acc + l.length + 1 ≤ b
    · simpa [takeOverlapRev, hf] using takeOverlapRev_size_le b rest (acc + l.length + 1) hf
    · simpa [takeOverlapRev, hf] using h

/-- At most as many overlap lines as window lines are collected. -/
theorem takeOverlapRev_len (b : ℕ) :
    ∀ (rl : List Str) (acc : ℕ), (takeOverlapRev b rl acc).1.length ≤ rl.length
  | [], _ => Nat.le_refl 0
  | l :: rest, acc => by
    by_cases hf : acc + l.length + 1 ≤ b
    · have := takeOverlapRev_len b rest (acc + l.length + 1)
      simp [takeOverlapRev, hf]
      omega
    · simp [takeOverlapRev, hf]

/-- When every window line fits the budget, the whole window is collected. -/
theorem takeOverlapRev_all (b : ℕ) :
    ∀ (rl : List Str) (acc : ℕ), acc + (rl.map (fun s => s.length + 1)).sum ≤ b →
      (takeOverlapRev b rl acc).1 = rl.reverse
  | [], _, _ => rfl
  | l :: rest, acc, h => by
    simp only [List.map_cons, List.sum_cons] at h
    have hf : acc + l.length + 1 ≤ b := by omega
    have := takeOverlapRev_all b rest (acc + l.length + 1) (by omega)
    simp [takeOverlapRev, hf, this]

/-- A reversed take of a reversed list is a suffix of the original. -/
theorem revTake_suffix (l : List Str) (k : ℕ) : (l.reverse.take k).reverse <:+ l := by
  have h : l.reverse.take k <+: l.reverse := ⟨l.reverse.drop k, by simp⟩
  have h2 := List.reverse_suffix.mpr h
  simpa using h2

/-- The overlap collected from a reversed-take window is a suffix of the
original line list. -/
theorem takeOverlapRev_window_suffix (b k : ℕ) (cur : List Str) (acc : ℕ) :
    (takeOverlapRev b (cur.reverse.take k) acc).1 <:+ cur := by
  obtain ⟨m, hm⟩ := takeOverlapRev_shape b (cur.reverse.take k) acc
  rw [hm, List.take_take]
  exact revTake_suffix cur (min m k)

/-! ### Lemmas about substring search -/

/-- If the pattern occurs at some position, find succeeds. -/
theorem strFind_of_occurs :
    ∀ (hay pat : Str) (i : ℕ), pat.isPrefixOf (hay.drop i) = true →
      ∃ j, strFind hay pat = some j
  | hay, pat, 0, h => ⟨0, by unfold strFind; simp_all⟩
  | [], pat, _ + 1, h => ⟨0, by unfold strFind; simp_all⟩
  | c :: t, pat, i + 1, h => by
    by_cases hp : pat.isPrefixOf (c :: t)
    · exact ⟨0, by unfold strFind; simp [hp]⟩
    · obtain ⟨j, hj⟩ := strFind_of_occurs t pat i h
      exact ⟨j + 1, by unfold strFind; simp [hp, hj]⟩

/-- A successful find points at an occurrence. -/
theorem strFind_prefix_drop :
    ∀ (hay pat : Str) (j : ℕ), strFind hay pat = some j →
      pat.isPrefixOf (hay.drop j) = true
  | hay, pat, j => by
    unfold strFind
    by_cases hp : pat.isPrefixOf hay
    · intro h
      simp [hp] at h
      subst h
      simpa using hp
    · match hay with
      | [] => simp [hp]
      | c :: t =>
        intro h
        simp [hp] at h
        obtain ⟨j2, hj2, rfl⟩ := h
        simpa using strFind_prefix_drop t pat j2 hj2

/-- A successful find is within the text. -/
theorem strFind_le :
    ∀ (hay pat : Str) (j : ℕ), strFind hay pat = some j → j ≤ hay.length
  | hay, pat, j => by
    unfold strFind
    by_cases hp : pat.isPrefixOf hay
    · intro h
      simp [hp] at h
      omega
    · match hay with
      | [] => simp [hp]
      | c :: t =>
        intro h
        simp [hp] at h
        obtain ⟨j2, hj2, rfl⟩ := h
        have := strFind_le t pat j2 hj2
        simp
        omega

/-- A single occurrence gives an occurrence position. -/
theorem occCount_one_exists (hay pat : Str) (h : occCount hay pat = 1) :
    ∃ i, pat.isPrefixOf (hay.drop i) = true := by
  unfold occCount at h
  obtain ⟨a, ha⟩ := List.length_eq_one.mp h
  have hm : a ∈ (List.range (hay.length + 1)).filter
      (fun i => pat.isPrefixOf (hay.drop i)) := by
    rw [ha]; exact List.mem_singleton_self a
  exact ⟨a, by simpa using (List.mem_filter.mp hm).2⟩

/-- Slicing at a found occurrence recovers the pattern. -/
theorem pySlice_of_find (hay pat : Str) (j : ℕ) (hj : strFind hay pat = some j) :
    pySlice hay (j : ℤ) ((j : ℤ) + pat.length) = pat := by
  have hle := strFind_le hay pat j hj
  have hpre : pat <+: hay.drop j := by
    have := strFind_prefix_drop hay pat j hj
    exact List.isPrefixOf_iff_prefix.mp this
  have hlen : pat.length ≤ hay.length - j := by
    have := hpre.length_le
    simpa using this
  have hidx1 : pyIdx hay.length (j : ℤ) = j := by
    unfold pyIdx
    rw [if_neg (by omega)]
    have h1 : (j : ℤ).toNat = j := by omega
    rw [h1]
    omega
  have hidx2 : pyIdx hay.length ((j : ℤ) + pat.length) = j + pat.length := by
    unfold pyIdx
    rw [if_neg (by omega)]
    have h1 : ((j : ℤ) + pat.length).toNat = j + pat.length := by omega
    rw [h1]
    omega
  unfold pySlice
  rw [hidx1, hidx2, List.drop_take]
  have : j + pat.length - j = pat.length := by omega
  rw [this]
  have := List.prefix_iff_eq_take.mp hpre
  exact this.symm

/-- Position fields of every chunk built by the create_chunks loop. -/
theorem ccLoop_pos (doc : Document) :
    ∀ (l : List Str) (i k : ℕ) (c : DocumentChunk), c ∈ ccLoop doc l i k →
      c.start_pos = strFindInt doc.content c.content ∧
      c.end_pos = c.start_pos + c.content.length
  | [], _, _, _, hc => absurd hc (List.not_mem_nil _)
  | t :: rest, i, k, c, hc => by
    unfold ccLoop at hc
    by_cases hs : pyStrip t = []
    · simp only [hs, if_pos rfl] at hc
      exact ccLoop_pos doc rest (i + 1) k c hc
    · simp only [if_neg hs, List.mem_cons] at hc
      rcases hc with rfl | hc
      · exact ⟨rfl, rfl⟩
      · exact ccLoop_pos doc rest (i + 1) (k + 1) c hc

/-- Total size of a list of lines, each line counted with its newline. -/
def sizeSum (l : List Str) : ℕ := (l.map (fun s => s.length + 1)).sum

/-- The overlap collected from a full reversed line list is a suffix. -/
theorem takeOverlapRev_suffix_full (b : ℕ) (l : List Str) (acc : ℕ) :
    (takeOverlapRev b l.reverse acc).1 <:+ l := by
  have h := takeOverlapRev_window_suffix b l.length l acc
  rwa [← List.length_reverse l, List.take_length] at h

/-! ### Claim theorems for the chunker -/

/-- Claim C3 (amended): for the empty input text, split_into_chunks returns a
one-element list holding the empty chunk, for every chunk size and overlap;
the Python split of the empty string yields one empty line, which survives the
fallback splitter as one empty chunk. -/
theorem split_into_chunks_empty_input (cs co : ℕ) :
    splitIntoChunks [] cs co = [[]] := by
  unfold splitIntoChunks headerPositions splitLines
  simp [pyStrip]
  unfold simpleSplitChunks splitLines simpleStep
  simp [joinLines]

/-- Claim C3 (counterexample): at the default settings, split_into_chunks on
the empty string returns one empty chunk, not the empty list the claim states. -/
theorem split_into_chunks_empty_input_counterexample :
    splitIntoChunks [] settingsChunkSize settingsChunkOverlap = [[]] ∧
    splitIntoChunks [] settingsChunkSize settingsChunkOverlap ≠ [] := by
  constructor
  · exact split_into_chunks_empty_input settingsChunkSize settingsChunkOverlap
  · rw [split_into_chunks_empty_input settingsChunkSize settingsChunkOverlap]
    decide

/-- Claim C10: in _split_large_section, when a line whose stripped form starts
with three hash marks arrives while the current chunk is nonempty and its size
exceeds 0.7 times the chunk size, the current chunk is emitted and the next
chunk starts as exactly the sub-header line, with no overlap seeded. -/
theorem sls_sub_header_cut (cs co : ℕ) (st : SplitState) (line : Str)
    (h1 : ['#', '#', '#'].isPrefixOf (pyStrip line) = true)
    (h2 : st.cur ≠ [])
    (h3 : 7 * cs < 10 * st.size) :
    slsStep cs co st line =
      ⟨st.chunks ++ [joinLines st.cur], [line], line.length + 1⟩ := by
  unfold slsStep
  simp [h1, h2, h3]

/-- Claim C10 witness: a concrete sub-header cut. -/
theorem sls_sub_header_cut_witness :
    slsStep 10 5 ⟨[], [['x']], 10⟩ ['#', '#', '#', ' ', 'h'] =
      ⟨[['x']], [['#', '#', '#', ' ', 'h']], 6⟩ := by
  have h := sls_sub_header_cut 10 5 ⟨[], [['x']], 10⟩ ['#', '#', '#', ' ', 'h']
    (by decide) (by decide) (by decide)
  simpa [joinLines] using h

/-- Claim C4 (amended): at a size-triggered cut, the sub-split seeds the next
chunk with a trailing overlap window of at most the overlap budget in
characters, drawn as a suffix of the previous chunk lines with the look-back
capped at 2 lines (the Python range excludes its stop, so at most the last two
lines are examined and a single-line chunk seeds nothing); the top-level
fallback seeds the same way with unbounded line look-back (when every previous
line fits the budget the whole previous chunk is the seed). -/
theorem overlap_seeding (cs co : ℕ) (st : SplitState) (line : Str) :
    ((['#', '#', '#'].isPrefixOf (pyStrip line) && !st.cur.isEmpty
        && decide (7 * cs < 10 * st.size)) = false →
      cs < st.size + (line.length + 1) → st.cur ≠ [] →
      slsStep cs co st line =
        ⟨st.chunks ++ [joinLines st.cur],
         (takeOverlapRev co (subSplitWindow st.cur) 0).1 ++ [line],
         (takeOverlapRev co (subSplitWindow st.cur) 0).2 + (line.length + 1)⟩ ∧
      (takeOverlapRev co (subSplitWindow st.cur) 0).1 <:+ st.cur ∧
      (takeOverlapRev co (subSplitWindow st.cur) 0).1.length ≤ 2 ∧
      (takeOverlapRev co (subSplitWindow st.cur) 0).2 ≤ co) ∧
    (cs < st.size + (line.length + 1) → st.cur ≠ [] →
      simpleStep cs co st line =
        ⟨st.chunks ++ [joinLines st.cur],
         (takeOverlapRev co st.cur.reverse 0).1 ++ [line],
         (takeOverlapRev co st.cur.reverse 0).2 + (line.length + 1)⟩ ∧
      (takeOverlapRev co st.cur.reverse 0).1 <:+ st.cur ∧
      (takeOverlapRev co st.cur.reverse 0).2 ≤ co ∧
      (sizeSum st.cur ≤ co → (takeOverlapRev co st.cur.reverse 0).1 = st.cur)) := by
  constructor
  · intro hno hcut hne
    refine ⟨?_, ?_, ?_, ?_⟩
    · unfold slsStep
      simp [hno, hcut, hne, subSplitWindow]
    · exact takeOverlapRev_window_suffix co _ st.cur 0
    · have h1 := takeOverlapRev_len co (subSplitWindow st.cur) 0
      have h2 : (subSplitWindow st.cur).length ≤ 2 := by
        unfold subSplitWindow
        simp
        omega
      omega
    · exact takeOverlapRev_size_le co _ 0 (Nat.zero_le co)
  · intro hcut hne
    refine ⟨?_, ?_, ?_, ?_⟩
    · unfold simpleStep
      simp [hcut, hne]
    · exact takeOverlapRev_suffix_full co st.cur 0
    · exact takeOverlapRev_size_le co _ 0 (Nat.zero_le co)
    · intro hall
      have h := takeOverlapRev_all co st.cur.reverse 0 (by
        unfold sizeSum at hall
        simp only [List.map_reverse, List.sum_reverse]
        omega)
      simpa using h

/-- Claim C4 (counterexample): with chunk size 16 and overlap budget 100, a
size cut occurs at the last line; the three trailing one-character lines b, c,
d all fit the 100-character budget, so the claimed 3-line look-back would seed
the next chunk with b, c, d, but the code seeds only c, d: the second emitted
chunk does not contain the line b. -/
theorem overlap_seeding_counterexample :
    (splitLargeSection
        [['a', 'a', 'a', 'a', 'a', 'a', 'a', 'a'], ['b'], ['c'], ['d'],
         ['z', 'z', 'z', 'z', 'z', 'z', 'z', 'z', 'z', 'z']] 16 100).getD 1 [] =
      ['c', '\n', 'd', '\n', 'z', 'z', 'z', 'z', 'z', 'z', 'z', 'z', 'z', 'z'] ∧
    sizeSum [['b'], ['c'], ['d']] ≤ 100 ∧
    (['b', '\n', 'c', '\n', 'd'].isPrefixOf
      ((splitLargeSection
        [['a', 'a', 'a', 'a', 'a', 'a', 'a', 'a'], ['b'], ['c'], ['d'],
         ['z', 'z', 'z', 'z', 'z', 'z', 'z', 'z', 'z', 'z']] 16 100).getD 1 [])) = false := by
  decide

/-- Claim C4 witness: a concrete size-triggered cut in the sub-split,
seeding the two trailing lines. -/
theorem overlap_seeding_witness :
    slsStep 16 100 ⟨[], [['a', 'a', 'a', 'a', 'a', 'a', 'a', 'a'], ['b'], ['c'], ['d']], 15⟩
        ['z', 'z', 'z', 'z', 'z', 'z', 'z', 'z', 'z', 'z'] =
      ⟨[['a', 'a', 'a', 'a', 'a', 'a', 'a', 'a', '\n', 'b', '\n', 'c', '\n', 'd']],
       [['c'], ['d'], ['z', 'z', 'z', 'z', 'z', 'z', 'z', 'z', 'z', 'z']], 15⟩ := by
  have h := (overlap_seeding 16 100
    ⟨[], [['a', 'a', 'a', 'a', 'a', 'a', 'a', 'a'], ['b'], ['c'], ['d']], 15⟩
    ['z', 'z', 'z', 'z', 'z', 'z', 'z', 'z', 'z', 'z']).1
    (by decide) (by decide) (by decide)
  rw [h.1]
  decide

/-- Claim C8: for every document and every chunk create_chunks produces from
it, if the chunk content occurs exactly once in the document content, then the
Python slice content[start_pos:end_pos] recovers the chunk content. -/
theorem create_chunks_round_trip (doc : Document) (c : DocumentChunk)
    (hc : c ∈ createChunks doc) (h1 : occCount doc.content c.content = 1) :
    pySlice doc.content c.start_pos c.end_pos = c.content := by
  obtain ⟨hs, he⟩ := ccLoop_pos doc _ 0 0 c hc
  obtain ⟨i, hi⟩ := occCount_one_exists doc.content c.content h1
  obtain ⟨j, hj⟩ := strFind_of_occurs doc.content c.content i hi
  have hs2 : c.start_pos = (j : ℤ) := by
    rw [hs]
    unfold strFindInt
    rw [hj]
  rw [he, hs2]
  exact pySlice_of_find doc.content c.content j hj

/-- Claim C8 witness: a concrete one-header document. -/
theorem create_chunks_round_trip_witness :
    pySlice ['#', ' ', 't', '\n', 'o', 'k'] (0 : ℤ) (6 : ℤ) =
      ['#', ' ', 't', '\n', 'o', 'k'] := by
  have h := create_chunks_round_trip
    ⟨['D'], ['T'], ['#', ' ', 't', '\n', 'o', 'k'], ['e', 'n'], ['g'], [], []⟩
    ⟨['D', '_', 'c', 'h', 'u', 'n', 'k', '_', '0'], ['D'],
     ['#', ' ', 't', '\n', 'o', 'k'], ['e', 'n'], ['g'], 0, 0, 6, ['T'], [], []⟩
    (by decide) (by decide)
  exact h

/-! ### In-memory vector store (src/vectorstore/memory_store.py)

The external sentence-transformer is modelled as an arbitrary embedding
function from text to rational vectors; the batched encode call maps it over
the texts, one vector per input, which is the contract of the collaborator. -/

/-- Python space-join of a list of strings. -/
def spaceJoin : List Str → Str
  | [] => []
  | [t] => t
  | t :: rest => t ++ ' ' :: spaceJoin rest

/-- get_embedding_text of add_chunks: title, joined tags, category, language
and content, space-separated, stripped.  The tags field is a list in the
model, so the list branch of the Python isinstance test applies. -/
def getEmbeddingText (c : DocumentChunk) : Str :=
  pyStrip (c.title ++ ' ' :: spaceJoin c.tags ++ ' ' :: c.category ++ ' ' ::
    c.language ++ ' ' :: c.content)

/-- State of MemoryVectorStore: chunk list, embedding list and the id-to-slot
map (a Python dict, modelled as an association list with one binding per key). -/
structure MemoryVectorStore where
  chunks : List DocumentChunk
  embeddings : List (List ℚ)
  chunk_to_embedding : List (Str × ℕ)
deriving DecidableEq

/-- A fresh store. -/
def initStore : MemoryVectorStore := ⟨[], [], []⟩

/-- Python dict assignment d[k] = v: replace any existing binding of k. -/
def assocSet (m : List (Str × ℕ)) (k : Str) (v : ℕ) : List (Str × ℕ) :=
  (m.filter (fun p => !(p.1 == k))) ++ [(k, v)]

/-- MemoryVectorStore.add_chunks. -/
def addChunks (embed : Str → List ℚ) (s : MemoryVectorStore)
    (cs : List DocumentChunk) : MemoryVectorStore :=
  if cs.isEmpty then s
  else
    let embs := (cs.map getEmbeddingText).map embed
    { chunks := s.chunks ++ cs
      embeddings := s.embeddings ++ embs
      chunk_to_embedding :=
        cs.enum.foldl (fun m p => assocSet m p.2.id (s.chunks.length + p.1))
          s.chunk_to_embedding }

/-- MemoryVectorStore.clear. -/
def clearStore (_s : MemoryVectorStore) : MemoryVectorStore := ⟨[], [], []⟩

/-- MemoryVectorStore.get_stats: total_chunks, total_embeddings and the
embedding dimension (0 when no embeddings are stored). -/
def getStats (s : MemoryVectorStore) : ℕ × ℕ × ℕ :=
  (s.chunks.length, s.embeddings.length, (s.embeddings.headD []).length)

/-- Dot product; the stored and query vectors always have the model dimension,
so the zip truncation never fires. -/
def dotProduct (a b : List ℚ) : ℚ := ((a.zip b).map (fun p => p.1 * p.2)).sum

/-- Sum of squares of the entries. -/
def sumSq (v : List ℚ) : ℚ := (v.map (fun x => x * x)).sum

/-- Integer square root (largest k with k * k at most n), written as a count
so that it evaluates by kernel reduction. -/
def natSqrtLin (n : ℕ) : ℕ :=
  (List.range (n + 1)).countP (fun k => 0 < k && k * k ≤ n)

/-- Square root on rationals, exact on squares of rationals; every concrete
vector in this development has an exactly-rational norm, and for the theorems
only positivity and zero-ness of the value matter. -/
def ratSqrt (q : ℚ) : ℚ := (natSqrtLin q.num.toNat : ℚ) / (natSqrtLin q.den : ℚ)

/-- Euclidean norm of a vector. -/
def vecNorm (v : List ℚ) : ℚ := ratSqrt (sumSq v)

/-- MemoryVectorStore._cosine_similarity: dot(a,b) / (norm(a) * norm(b)) with
no guard on the denominator; a zero denominator makes the IEEE float division
return NaN, modelled here by none.  The branch below is the model of float
division, not a guard present in the code. -/
def cosineSimilarity (a b : List ℚ) : Option ℚ :=
  if vecNorm a * vecNorm b = 0 then none
  else some (dotProduct a b / (vecNorm a * vecNorm b))

/-- Python truthiness of the optional language / category filter arguments
(absent and empty strings are both falsy). -/
def truthy (o : Option Str) : Bool :=
  match o with
  | none => false
  | some s => !s.isEmpty

/-- The two continue tests of the filter loop of search; a chunk is a
candidate exactly when neither test fires, which also covers the unfiltered
case where both arguments are falsy. -/
def passesFilter (language category : Option Str) (c : DocumentChunk) : Bool :=
  (!(truthy language && !(c.language == language.getD []))) &&
  (!(truthy category && !(c.category == category.getD [])))

/-- Slots of the chunks the filter retains, in insertion order (the Python
membership test chunk in filtered_chunks is equivalent to the filter predicate
because list membership compares whole records). -/
def candidateSlots (s : MemoryVectorStore) (language category : Option Str) : List ℕ :=
  (List.range s.chunks.length).filter
    (fun i => passesFilter language category (s.chunks.getD i default))

/-- Strict comparison on scores with NaN (none) greatest, as in numpy sorting
where NaN sorts last in ascending order. -/
def nanStrictLt : Option ℚ → Option ℚ → Bool
  | some x, some y => decide (x < y)
  | some _, none => true
  | none, _ => false

/-- The argsort order on positions of the similarity list: ascending by score
with NaN last, ties broken by position.  This is a linear order, so the sorted
permutation of the positions is the stable ascending argsort. -/
def argRelB (sims : List (Option ℚ)) (i j : ℕ) : Bool :=
  if sims.getD i none = sims.getD j none then decide (i ≤ j)
  else nanStrictLt (sims.getD i none) (sims.getD j none)

/-- Propositional form of the argsort order. -/
def argRel (sims : List (Option ℚ)) (i j : ℕ) : Prop := argRelB sims i j = true

instance (sims : List (Option ℚ)) : DecidableRel (argRel sims) :=
  fun i j => inferInstanceAs (Decidable (argRelB sims i j = true))

/-- np.argsort(similarities): stable ascending argsort (numpy uses insertion
sort for the short runs relevant here; the model fixes the stable order). -/
def argsort (sims : List (Option ℚ)) : List ℕ :=
  List.insertionSort (argRel sims) (List.range sims.length)

/-- A search hit annotated with its store slot. -/
structure SlotResult where
  slot : ℕ
  chunk : DocumentChunk
  similarity : ℚ
deriving DecidableEq

/-- The body of the result loop of search at one argsort position: keep the
slot when its score is defined and at least the threshold (an IEEE NaN fails
the comparison similarity >= threshold, so a none score is dropped). -/
def emitResult (s : MemoryVectorStore) (cand : List ℕ) (sims : List (Option ℚ))
    (threshold : ℚ) (idx : ℕ) : Option SlotResult :=
  match sims.getD idx none with
  | some v =>
    if threshold ≤ v then
      some ⟨cand.getD idx 0, s.chunks.getD (cand.getD idx 0) default, v⟩
    else none
  | none => none

/-- MemoryVectorStore.search, keeping the store slot of every hit: empty-store
early return, metadata filter, cosine scores, argsort reversed and truncated
to top_k, then the threshold filter. -/
def searchAnn (s : MemoryVectorStore) (embed : Str → List ℚ) (query : Str)
    (top_k : ℕ) (threshold : ℚ) (language category : Option Str) : List SlotResult :=
  if s.chunks.isEmpty then []
  else
    let qv := embed query
    let cand := candidateSlots s language category
    let sims := cand.map (fun i => cosineSimilarity qv (s.embeddings.getD i []))
    if sims.isEmpty then []
    else
      ((argsort sims).reverse.take top_k).filterMap (emitResult s cand sims threshold)

/-- MemoryVectorStore.search as the code returns it: (chunk, similarity) pairs. -/
def search (s : MemoryVectorStore) (embed : Str → List ℚ) (query : Str)
    (top_k : ℕ) (threshold : ℚ) (language category : Option Str) :
    List (DocumentChunk × ℚ) :=
  (searchAnn s embed query top_k threshold language category).map
    (fun r => (r.chunk, r.similarity))

/-! ### Multi-round retrieval orchestrator (src/services/knowledge_service.py) -/

/-- SearchResult of the knowledge service: chunk, similarity and the pass tag
(1 broad, 2 refined). -/
structure SearchResult where
  chunk : DocumentChunk
  similarity : ℚ
  round : ℕ
deriving DecidableEq

/-- Order used to model Python list.sort(key=similarity, reverse=True) on
index-decorated elements: key descending, original index ascending.  Python
sorting is stable, and a stable descending sort is exactly the sort by this
linear order after decorating with original positions. -/
def descRelB (key : α → ℚ) (p q : ℕ × α) : Bool :=
  if key p.2 = key q.2 then decide (p.1 ≤ q.1) else decide (key q.2 < key p.2)

/-- Propositional form of the descending sort order. -/
def descRel (key : α → ℚ) (p q : ℕ × α) : Prop := descRelB key p q = true

instance (key : α → ℚ) : DecidableRel (descRel key) :=
  fun p q => inferInstanceAs (Decidable (descRelB key p q = true))

/-- Python list.sort(key=..., reverse=True): stable descending sort by key. -/
def pyStableSortDesc (key : α → ℚ) (l : List α) : List α :=
  (List.insertionSort (descRel key) l.enum).map Prod.snd

/-- The refined results, tagged round 2, appended first by the merge. -/
def taggedRefined (refined : List (DocumentChunk × ℚ)) : List SearchResult :=
  refined.map (fun p => ⟨p.1, p.2, 2⟩)

/-- The merge of multi_round_search: all refined results first, then the broad
results whose chunk id is not among the refined ids (the existing_ids set is
computed once, before the broad loop, and not updated inside it). -/
def mergedResults (refined broad : List (DocumentChunk × ℚ)) : List SearchResult :=
  let allR := taggedRefined refined
  let existing := allR.map (fun r => r.chunk.id)
  allR ++ broad.filterMap (fun p =>
    if p.1.id ∈ existing then none else some ⟨p.1, p.2, 1⟩)

/-- KnowledgeService.multi_round_search: broad pass, empty short-circuit,
refined pass, merge, stable descending sort by similarity. -/
def multiRoundSearch (s : MemoryVectorStore) (embed : Str → List ℚ) (query : Str)
    (broad_top_k refined_top_k : ℕ) (broad_threshold refined_threshold : ℚ) :
    List SearchResult :=
  let broad := search s embed query broad_top_k broad_threshold none none
  if broad.isEmpty then []
  else
    pyStableSortDesc (fun r => r.similarity)
      (mergedResults (search s embed query refined_top_k refined_threshold none none) broad)

/-! ### Zero-norm safety (claim C5) -/

/-- Sum of squares is nonnegative. -/
theorem sumSq_nonneg (v : List ℚ) : 0 ≤ sumSq v := by
  unfold sumSq
  apply List.sum_nonneg
  intro x hx
  obtain ⟨y, _, rfl⟩ := List.mem_map.mp hx
  exact mul_self_nonneg y

/-- The counting square root is zero only at zero. -/
theorem natSqrtLin_eq_zero_iff (n : ℕ) : natSqrtLin n = 0 ↔ n = 0 := by
  constructor
  · intro h
    by_contra hn
    have h1 : 0 < natSqrtLin n := by
      unfold natSqrtLin
      rw [List.countP_pos_iff]
      refine ⟨1, List.mem_range.mpr (by omega), ?_⟩
      simp
      omega
    omega
  · intro h
    subst h
    decide

/-- The norm of a vector vanishes exactly when its sum of squares does. -/
theorem vecNorm_eq_zero_iff (v : List ℚ) : vecNorm v = 0 ↔ sumSq v = 0 := by
  unfold vecNorm ratSqrt
  have hden : (0 : ℚ) < (natSqrtLin (sumSq v).den : ℚ) := by
    have h1 : 0 < natSqrtLin (sumSq v).den := by
      have := (sumSq v).den_pos
      rcases Nat.eq_zero_or_pos (natSqrtLin (sumSq v).den) with h | h
      · rw [natSqrtLin_eq_zero_iff] at h
        omega
      · exact h
    exact_mod_cast h1
  rw [div_eq_zero_iff]
  constructor
  · intro h
    rcases h with h | h
    · have h2 : natSqrtLin (sumSq v).num.toNat = 0 := by exact_mod_cast h
      rw [natSqrtLin_eq_zero_iff] at h2
      have hnum : (sumSq v).num = 0 := by
        have := sumSq_nonneg v
        have hge : 0 ≤ (sumSq v).num := Rat.num_nonneg.mpr this
        omega
      exact Rat.num_eq_zero.mp hnum
    · exact absurd h (ne_of_gt hden)
  · intro h
    left
    rw [h]
    norm_num [natSqrtLin]

/-- Every slot index drawn from the truncated reversed argsort is a valid
position of the similarity list. -/
theorem mem_top_lt (sims : List (Option ℚ)) (k : ℕ) (idx : ℕ)
    (h : idx ∈ (argsort sims).reverse.take k) : idx < sims.length := by
  have h1 : idx ∈ (argsort sims).reverse := List.mem_of_mem_take h
  have h2 : idx ∈ argsort sims := List.mem_reverse.mp h1
  have h3 : idx ∈ List.range sims.length :=
    (List.perm_insertionSort (argRel sims) (List.range sims.length)).mem_iff.mp h2
  exact List.mem_range.mp h3

/-- Unfolding a successful emission: the score of the slot is defined, at
least the threshold, and the result fields are the slot, its chunk and the
score; a defined score also bounds the position. -/
theorem emitResult_eq_some {s : MemoryVectorStore} {cand : List ℕ}
    {sims : List (Option ℚ)} {threshold : ℚ} {idx : ℕ} {r : SlotResult}
    (h : emitResult s cand sims threshold idx = some r) :
    ∃ v, sims.getD idx none = some v ∧ threshold ≤ v ∧
      r = ⟨cand.getD idx 0, s.chunks.getD (cand.getD idx 0) default, v⟩ ∧
      idx < sims.length := by
  unfold emitResult at h
  rcases hv : sims.getD idx none with _ | v
  · rw [hv] at h
    simp at h
  · rw [hv] at h
    by_cases ht : threshold ≤ v
    · simp only [ht, if_pos] at h
      refine ⟨v, rfl, ht, (Option.some_inj.mp h).symm, ?_⟩
      by_contra hge
      push_neg at hge
      rw [List.getD_eq_default _ _ hge] at hv
      exact Option.noConfusion hv
    · simp [ht] at h

/-- Every result searchAnn returns carries the score of its slot, a defined
value at least the threshold. -/
theorem searchAnn_mem_score (s : MemoryVectorStore) (embed : Str → List ℚ)
    (query : Str) (top_k : ℕ) (threshold : ℚ) (language category : Option Str)
    (r : SlotResult) (hr : r ∈ searchAnn s embed query top_k threshold language category) :
    cosineSimilarity (embed query) (s.embeddings.getD r.slot []) = some r.similarity ∧
    threshold ≤ r.similarity := by
  unfold searchAnn at hr
  by_cases hempty : s.chunks.isEmpty
  · simp [hempty] at hr
  · simp only [hempty, Bool.false_eq_true, if_false] at hr
    set cand := candidateSlots s language category with hcand
    set sims := cand.map (fun i => cosineSimilarity (embed query) (s.embeddings.getD i []))
      with hsims
    by_cases hsempty : sims.isEmpty
    · simp [hsempty] at hr
    · simp only [hsempty, Bool.false_eq_true, if_false] at hr
      obtain ⟨idx, hidx, hg⟩ := List.mem_filterMap.mp hr
      obtain ⟨v, hv, ht, hgr, hlt⟩ := emitResult_eq_some hg
      have hltc : idx < cand.length := by
        rw [hsims] at hlt
        simpa using hlt
      have hslot : sims.getD idx none = cosineSimilarity (embed query)
          (s.embeddings.getD (cand.getD idx 0) []) := by
        rw [List.getD_eq_getElem _ _ hlt, List.getD_eq_getElem _ _ hltc]
        simp only [hsims, List.getElem_map]
      constructor
      · rw [hgr]
        simp only
        rw [← hslot, hv]
      · rw [hgr]
        exact ht

/-- Claim C5 (amended): the cosine similarity is computed by an unguarded
division, so a pair where either vector has zero norm gets the undefined IEEE
value (modelled none), not the score 0; search neither raises nor returns such
a pair, because an undefined score fails the similarity-at-least-threshold
test and the pair is skipped. -/
theorem cosine_zero_norm (a b : List ℚ) (s : MemoryVectorStore)
    (embed : Str → List ℚ) (query : Str) (top_k : ℕ) (threshold : ℚ)
    (language category : Option Str) (r : SlotResult)
    (hz : sumSq a = 0 ∨ sumSq b = 0)
    (hr : r ∈ searchAnn s embed query top_k threshold language category) :
    cosineSimilarity a b = none ∧
    cosineSimilarity (embed query) (s.embeddings.getD r.slot []) ≠ none := by
  constructor
  · unfold cosineSimilarity
    have hnorm : vecNorm a * vecNorm b = 0 := by
      rcases hz with h | h
      · rw [mul_eq_zero]
        left
        exact (vecNorm_eq_zero_iff a).mpr h
      · rw [mul_eq_zero]
        right
        exact (vecNorm_eq_zero_iff b).mpr h
    simp [hnorm]
  · have := (searchAnn_mem_score s embed query top_k threshold language category r hr).1
    rw [this]
    exact Option.some_ne_none r.similarity

/-- Claim C5 (counterexample): the similarity computed for a zero-norm pair is
the undefined value, not the score 0 the claim allows, showing the division is
not guarded. -/
theorem cosine_zero_norm_counterexample :
    cosineSimilarity [1, 0] [0, 0] = none ∧
    cosineSimilarity [1, 0] [0, 0] ≠ some 0 := by
  decide

/-- Claim C5 witness: a store holding one zero-norm vector and one unit
vector; the unit-vector chunk is returned with a defined score. -/
theorem cosine_zero_norm_witness :
    cosineSimilarity [0, 0] [1, 0] = none ∧
    cosineSimilarity [1, 0] [1, 0] ≠ none := by
  have h := cosine_zero_norm [0, 0] [1, 0]
    ⟨[⟨['a'], ['d'], ['x'], ['e', 'n'], ['g'], 0, 0, 1, ['T'], [], []⟩,
      ⟨['b'], ['d'], ['y'], ['e', 'n'], ['g'], 1, 0, 1, ['T'], [], []⟩],
     [[1, 0], [0, 0]], []⟩
    (fun _ => [1, 0]) ['q'] 5 0 none none
    ⟨0, ⟨['a'], ['d'], ['x'], ['e', 'n'], ['g'], 0, 0, 1, ['T'], [], []⟩, 1⟩
    (by decide) (by decide)
  exact ⟨h.1, h.2⟩

/-! ### Store invariant (claim C6) and empty behavior (claim C9) -/

/-- The alignment invariant of the store. -/
def invariantLen (s : MemoryVectorStore) : Prop :=
  s.chunks.length = s.embeddings.length

/-- Search as a state transition: the Python method reads the fields of self
and never writes them, so the state component is the unchanged store. -/
def searchOp (s : MemoryVectorStore) (embed : Str → List ℚ) (query : Str)
    (top_k : ℕ) (threshold : ℚ) (language category : Option Str) :
    List (DocumentChunk × ℚ) × MemoryVectorStore :=
  (search s embed query top_k threshold language category, s)

/-- get_stats as a state transition: a pure read of the fields of self. -/
def getStatsOp (s : MemoryVectorStore) : (ℕ × ℕ × ℕ) × MemoryVectorStore :=
  (getStats s, s)

/-- Claim C6: the chunk and embedding lists stay aligned: the fresh store
satisfies the invariant, add_chunks preserves it for every chunk list
(empty and duplicate-id lists included, since the batched encode returns one
vector per input text), search and get_stats leave the store unchanged, and
clear restores the empty aligned state. -/
theorem store_length_invariant (embed : Str → List ℚ) (s : MemoryVectorStore)
    (cs : List DocumentChunk) (query : Str) (top_k : ℕ) (threshold : ℚ)
    (language category : Option Str) (h : invariantLen s) :
    invariantLen initStore ∧
    invariantLen (addChunks embed s cs) ∧
    (searchOp s embed query top_k threshold language category).2 = s ∧
    (getStatsOp s).2 = s ∧
    invariantLen (clearStore s) := by
  refine ⟨rfl, ?_, rfl, rfl, rfl⟩
  unfold addChunks
  by_cases hc : cs.isEmpty
  · simpa [hc] using h
  · unfold invariantLen at h ⊢
    simp [hc, h]

/-- Claim C6 witness: adding a duplicated chunk to the fresh store keeps the
lists aligned. -/
theorem store_length_invariant_witness :
    invariantLen initStore ∧
    invariantLen (addChunks (fun _ => [1, 0]) initStore
      [⟨['a'], ['d'], ['x'], ['e', 'n'], ['g'], 0, 0, 1, ['T'], [], []⟩,
       ⟨['a'], ['d'], ['x'], ['e', 'n'], ['g'], 0, 0, 1, ['T'], [], []⟩]) ∧
    (searchOp initStore (fun _ => [1, 0]) ['q'] 5 0 none none).2 = initStore ∧
    (getStatsOp initStore).2 = initStore ∧
    invariantLen (clearStore initStore) :=
  store_length_invariant (fun _ => [1, 0]) initStore
    [⟨['a'], ['d'], ['x'], ['e', 'n'], ['g'], 0, 0, 1, ['T'], [], []⟩,
     ⟨['a'], ['d'], ['x'], ['e', 'n'], ['g'], 0, 0, 1, ['T'], [], []⟩]
    ['q'] 5 0 none none rfl

/-- Claim C9: a store with zero chunks makes search return the empty list and
multi_round_search return the empty list, and whenever the broad pass is
empty, multi_round_search short-circuits to the empty list for every choice of
the refined parameters, so the refined pass cannot influence the result. -/
theorem empty_search_short_circuit (s : MemoryVectorStore) (embed : Str → List ℚ)
    (query : Str) (top_k : ℕ) (threshold : ℚ) (language category : Option Str)
    (bk rk : ℕ) (bt rt : ℚ) :
    (s.chunks = [] →
      search s embed query top_k threshold language category = [] ∧
      multiRoundSearch s embed query bk rk bt rt = []) ∧
    (search s embed query bk bt none none = [] →
      multiRoundSearch s embed query bk rk bt rt = []) := by
  constructor
  · intro hnil
    have hs : ∀ (k : ℕ) (t : ℚ) (lg ct : Option Str),
        search s embed query k t lg ct = [] := by
      intro k t lg ct
      unfold search searchAnn
      simp [hnil]
    refine ⟨hs top_k threshold language category, ?_⟩
    unfold multiRoundSearch
    simp [hs bk bt none none]
  · intro hb
    unfold multiRoundSearch
    simp [hb]

/-- Claim C9 witness: the fresh store returns empty results from both search
and multi_round_search. -/
theorem empty_search_short_circuit_witness :
    search initStore (fun _ => [1, 0]) ['q'] 5 (7 / 10) none none = [] ∧
    multiRoundSearch initStore (fun _ => [1, 0]) ['q'] 20 5 (3 / 10) (1 / 2) = [] :=
  (empty_search_short_circuit initStore (fun _ => [1, 0]) ['q'] 5 (7 / 10)
    none none 20 5 (3 / 10) (1 / 2)).1 rfl

/-! ### Order properties of the argsort and descending-sort relations -/

/-- Strict NaN-last comparison is asymmetric. -/
theorem nanStrictLt_asymm {a b : Option ℚ} (h : nanStrictLt a b = true) :
    nanStrictLt b a = false := by
  match a, b with
  | some x, some y =>
    simp [nanStrictLt] at h ⊢
    linarith
  | some _, none => simp [nanStrictLt]
  | none, _ => simp [nanStrictLt] at h

/-- Strict NaN-last comparison is transitive. -/
theorem nanStrictLt_trans {a b c : Option ℚ} (h1 : nanStrictLt a b = true)
    (h2 : nanStrictLt b c = true) : nanStrictLt a c = true := by
  match a, b, c with
  | some x, some y, some z =>
    simp [nanStrictLt] at h1 h2 ⊢
    linarith
  | some x, some y, none => simp [nanStrictLt]
  | some x, none, _ => simp [nanStrictLt] at h2
  | none, _, _ => simp [nanStrictLt] at h1

/-- Strict NaN-last comparison is total on distinct values. -/
theorem nanStrictLt_total {a b : Option ℚ} (h : a ≠ b) :
    nanStrictLt a b = true ∨ nanStrictLt b a = true := by
  match a, b with
  | some x, some y =>
    simp [nanStrictLt]
    intro hxy
    exact h (by rw [hxy])
  | some _, none => simp [nanStrictLt]
  | none, some _ => simp [nanStrictLt]
  | none, none => exact absurd rfl h

instance instArgRelTotal (sims : List (Option ℚ)) : IsTotal ℕ (argRel sims) := by
  constructor
  intro i j
  unfold argRel argRelB
  by_cases h : sims.getD i none = sims.getD j none
  · rw [if_pos h, if_pos h.symm]
    rcases Nat.le_total i j with h1 | h1
    · exact Or.inl (by simpa using h1)
    · exact Or.inr (by simpa using h1)
  · rw [if_neg h, if_neg (Ne.symm h)]
    exact nanStrictLt_total h

instance instArgRelTrans (sims : List (Option ℚ)) : IsTrans ℕ (argRel sims) := by
  constructor
  intro i j k h1 h2
  unfold argRel argRelB at h1 h2 ⊢
  by_cases hij : sims.getD i none = sims.getD j none
  · rw [if_pos hij] at h1
    by_cases hjk : sims.getD j none = sims.getD k none
    · rw [if_pos hjk] at h2
      rw [if_pos (hij.trans hjk)]
      simp at h1 h2 ⊢
      omega
    · rw [if_neg hjk] at h2
      rw [if_neg (hij ▸ hjk), hij]
      exact h2
  · rw [if_neg hij] at h1
    by_cases hjk : sims.getD j none = sims.getD k none
    · rw [if_neg (fun hik => hij (hik.trans hjk.symm)), ← hjk]
      exact h1
    · rw [if_neg hjk] at h2
      by_cases hik : sims.getD i none = sims.getD k none
      · exfalso
        rw [← hik] at h2
        have h3 := nanStrictLt_asymm h1
        rw [h2] at h3
        simp at h3
      · rw [if_neg hik]
        exact nanStrictLt_trans h1 h2

instance instDescRelTotal (key : α → ℚ) : IsTotal (ℕ × α) (descRel key) := by
  constructor
  intro p q
  unfold descRel descRelB
  by_cases h : key p.2 = key q.2
  · rw [if_pos h, if_pos h.symm]
    rcases Nat.le_total p.1 q.1 with h1 | h1
    · exact Or.inl (by simpa using h1)
    · exact Or.inr (by simpa using h1)
  · rw [if_neg h, if_neg (Ne.symm h)]
    rcases lt_trichotomy (key p.2) (key q.2) with h1 | h1 | h1
    · exact Or.inr (by simpa using h1)
    · exact absurd h1 h
    · exact Or.inl (by simpa using h1)

instance instDescRelTrans (key : α → ℚ) : IsTrans (ℕ × α) (descRel key) := by
  constructor
  intro p q r h1 h2
  unfold descRel descRelB at h1 h2 ⊢
  by_cases hpq : key p.2 = key q.2
  · rw [if_pos hpq] at h1
    by_cases hqr : key q.2 = key r.2
    · rw [if_pos hqr] at h2
      rw [if_pos (hpq.trans hqr)]
      simp at h1 h2 ⊢
      omega
    · rw [if_neg hqr] at h2
      rw [if_neg (hpq ▸ hqr), hpq]
      exact h2
  · rw [if_neg hpq] at h1
    by_cases hqr : key q.2 = key r.2
    · rw [if_neg (fun hpr => hpq (hpr.trans hqr.symm)), ← hqr]
      exact h1
    · rw [if_neg hqr] at h2
      by_cases hpr : key p.2 = key r.2
      · exfalso
        simp at h1 h2
        rw [hpr] at h1
        linarith
      · rw [if_neg hpr]
        simp at h1 h2 ⊢
        linarith

/-- The stable descending sort is a permutation of its input. -/
theorem pyStableSortDesc_perm (key : α → ℚ) (l : List α) :
    (pyStableSortDesc key l).Perm l := by
  unfold pyStableSortDesc
  have h := (List.perm_insertionSort (descRel key) l.enum).map Prod.snd
  rwa [show l.enum.map Prod.snd = l from List.enumFrom_map_snd 0 l] at h

/-- The decorated output of the stable descending sort is sorted by the
descending order. -/
theorem pyStableSortDesc_sorted_enum (key : α → ℚ) (l : List α) :
    (List.insertionSort (descRel key) l.enum).Pairwise (descRel key) :=
  List.sorted_insertionSort (descRel key) l.enum

/-- The stable descending sort is descending in the key. -/
theorem pyStableSortDesc_desc (key : α → ℚ) (l : List α) :
    (pyStableSortDesc key l).Pairwise (fun x y => key y ≤ key x) := by
  unfold pyStableSortDesc
  refine List.Pairwise.map Prod.snd ?_ (pyStableSortDesc_sorted_enum key l)
  intro p q h
  unfold descRel descRelB at h
  by_cases heq : key p.2 = key q.2
  · exact le_of_eq heq.symm
  · rw [if_neg heq] at h
    simp at h
    linarith

/-- On key ties the stable descending sort keeps the original order of the
decorated indices. -/
theorem pyStableSortDesc_tie_indices (key : α → ℚ) (l : List α) :
    (List.insertionSort (descRel key) l.enum).Pairwise
      (fun p q => key p.2 = key q.2 → p.1 ≤ q.1) := by
  refine List.Pairwise.imp ?_ (pyStableSortDesc_sorted_enum key l)
  intro p q h heq
  unfold descRel descRelB at h
  rw [if_pos heq] at h
  simpa using h

/-- The argsort output is sorted in the argsort order. -/
theorem argsort_sorted (sims : List (Option ℚ)) :
    (argsort sims).Pairwise (argRel sims) :=
  List.sorted_insertionSort (argRel sims) (List.range sims.length)

/-- The argsort output is a permutation of the positions. -/
theorem argsort_perm (sims : List (Option ℚ)) :
    (argsort sims).Perm (List.range sims.length) :=
  List.perm_insertionSort (argRel sims) (List.range sims.length)

/-- The argsort output has no duplicate positions. -/
theorem argsort_nodup (sims : List (Option ℚ)) : (argsort sims).Nodup :=
  ((argsort_perm sims).nodup_iff).mpr (List.nodup_range sims.length)

/-- Candidate slots are strictly increasing. -/
theorem candidateSlots_sorted (s : MemoryVectorStore) (lg ct : Option Str) :
    (candidateSlots s lg ct).Pairwise (· < ·) :=
  List.Pairwise.filter _ (List.pairwise_lt_range s.chunks.length)

/-- Candidate slots index into the chunk list. -/
theorem candidateSlots_lt (s : MemoryVectorStore) (lg ct : Option Str) (i : ℕ)
    (hi : i ∈ candidateSlots s lg ct) : i < s.chunks.length := by
  unfold candidateSlots at hi
  exact List.mem_range.mp (List.mem_filter.mp hi).1

/-- Positions of a strictly increasing list are ordered with their values. -/
theorem pairwise_lt_getD {l : List ℕ} (h : l.Pairwise (· < ·)) (i j : ℕ)
    (hij : i < j) (hj : j < l.length) : l.getD i 0 < l.getD j 0 := by
  rw [List.getD_eq_getElem _ _ (lt_trans hij hj), List.getD_eq_getElem _ _ hj]
  have := List.pairwise_iff_get.mp h ⟨i, lt_trans hij hj⟩ ⟨j, hj⟩ (by simpa using hij)
  simpa using this

/-- The annotated search output is pairwise ordered: strictly descending
score, or an exact score tie with the later slot first; moreover all slots are
distinct valid positions of the chunk list. -/
theorem searchAnn_pairwise_strong (s : MemoryVectorStore) (embed : Str → List ℚ)
    (query : Str) (top_k : ℕ) (threshold : ℚ) (language category : Option Str) :
    (searchAnn s embed query top_k threshold language category).Pairwise
      (fun a b =>
        (b.similarity < a.similarity ∨
          (b.similarity = a.similarity ∧ b.slot < a.slot)) ∧
        a.slot ≠ b.slot ∧ a.slot < s.chunks.length ∧ b.slot < s.chunks.length) := by
  unfold searchAnn
  by_cases hempty : s.chunks.isEmpty
  · simp [hempty]
  · simp only [hempty, Bool.false_eq_true, if_false]
    set cand := candidateSlots s language category with hcand
    set sims := cand.map (fun i => cosineSimilarity (embed query) (s.embeddings.getD i []))
      with hsims
    by_cases hs2 : sims.isEmpty
    · simp [hs2]
    · simp only [hs2, Bool.false_eq_true, if_false]
      rw [List.pairwise_filterMap]
      have hrev : ((argsort sims).reverse).Pairwise (fun i j => argRel sims j i) :=
        List.pairwise_reverse.mpr (argsort_sorted sims)
      have hnodup : ((argsort sims).reverse).Nodup :=
        List.nodup_reverse.mpr (argsort_nodup sims)
      have hcomb : ((argsort sims).reverse.take top_k).Pairwise
          (fun i j => (argRel sims j i) ∧ i ≠ j) :=
        List.Pairwise.sublist (List.take_sublist _ _) (hrev.and hnodup)
      refine List.Pairwise.imp ?_ hcomb
      intro i j hij x hx y hy
      obtain ⟨hrel, hij2⟩ := hij
      obtain ⟨va, hva, hta, hxa, hia⟩ := emitResult_eq_some (Option.mem_def.mp hx)
      obtain ⟨vb, hvb, htb, hyb, hjb⟩ := emitResult_eq_some (Option.mem_def.mp hy)
      have hlen : sims.length = cand.length := by rw [hsims]; simp
      have hica : i < cand.length := hlen ▸ hia
      have hjca : j < cand.length := hlen ▸ hjb
      have hslota : x.slot = cand.getD i 0 := by rw [hxa]
      have hslotb : y.slot = cand.getD j 0 := by rw [hyb]
      have hmema : cand.getD i 0 ∈ cand := by
        rw [List.getD_eq_getElem _ _ hica]
        exact List.getElem_mem hica
      have hmemb : cand.getD j 0 ∈ cand := by
        rw [List.getD_eq_getElem _ _ hjca]
        exact List.getElem_mem hjca
      have hboundsa : x.slot < s.chunks.length := by
        rw [hslota]
        exact candidateSlots_lt s language category _ (hcand ▸ hmema)
      have hboundsb : y.slot < s.chunks.length := by
        rw [hslotb]
        exact candidateSlots_lt s language category _ (hcand ▸ hmemb)
      have hnodupc : cand.Nodup := by
        rw [hcand]
        unfold candidateSlots
        exact List.Nodup.filter _ (List.nodup_range _)
      have hslotne : x.slot ≠ y.slot := by
        rw [hslota, hslotb]
        rw [List.getD_eq_getElem _ _ hica, List.getD_eq_getElem _ _ hjca]
        intro hcontra
        exact hij2 ((List.Nodup.getElem_inj_iff hnodupc).mp hcontra)
      refine ⟨?_, hslotne, hboundsa, hboundsb⟩
      unfold argRel argRelB at hrel
      by_cases heq : sims.getD j none = sims.getD i none
      · rw [if_pos heq] at hrel
        have hji : j ≤ i := by simpa using hrel
        have hji2 : j < i := lt_of_le_of_ne hji (Ne.symm hij2)
        right
        constructor
        · rw [hva] at heq
          rw [hvb] at heq
          have := Option.some_inj.mp heq
          rw [hxa, hyb]
          simpa using this
        · rw [hslota, hslotb]
          exact pairwise_lt_getD (hcand ▸ candidateSlots_sorted s language category)
            j i hji2 hica
      · rw [if_neg heq] at hrel
        rw [hvb, hva] at hrel
        left
        have hlt : vb < va := by simpa [nanStrictLt] using hrel
        rw [hxa, hyb]
        simpa using hlt

/-- Shared concrete inputs: two distinct chunks and stores with identical
embeddings, and an embedding function constant at the unit vector. -/
def chunkA : DocumentChunk :=
  ⟨['a'], ['d'], ['x'], ['e', 'n'], ['g'], 0, 0, 1, ['T'], [], []⟩

/-- Second concrete chunk, inserted after chunkA. -/
def chunkB : DocumentChunk :=
  ⟨['b'], ['d'], ['y'], ['e', 'n'], ['g'], 1, 0, 1, ['T'], [], []⟩

/-- Constant unit-vector embedding function. -/
def embedUnit : Str → List ℚ := fun _ => [1, 0]

/-- Store with two distinct-id chunks whose embeddings are identical, so both
score exactly 1 against the unit query. -/
def pairStore : MemoryVectorStore := ⟨[chunkA, chunkB], [[1, 0], [1, 0]], []⟩

/-- Store holding the same chunk (same id) in two slots, as produced by
re-adding the same chunk list twice. -/
def dupStore : MemoryVectorStore := ⟨[chunkA, chunkA], [[1, 0], [1, 0]], []⟩

/-- A filterMap that succeeds on every element keeps the length. -/
theorem filterMap_length_of_forall_some {α β : Type} {f : α → Option β}
    {l : List α} (h : ∀ x ∈ l, (f x).isSome) :
    (l.filterMap f).length = l.length := by
  induction l with
  | nil => rfl
  | cons x xs ih =>
    obtain ⟨y, hy⟩ := Option.isSome_iff_exists.mp (h x (List.mem_cons_self x xs))
    rw [List.filterMap_cons, hy]
    simp [ih (fun z hz => h z (List.mem_cons_of_mem x hz))]

/-- Claim C2 (amended): search returns the top_k highest-similarity
candidates, dropping those below the threshold, sorted descending by
similarity; whenever two results have exactly equal scores, the candidate
inserted later appears before the one inserted earlier, because the code
reverses a stable ascending argsort (np.argsort(similarities)[::-1]).  The
selection conjunct states "top_k highest": when every candidate score is
defined, a filtered candidate at or above the threshold is either returned or
displaced by a full complement of top_k results each scoring at least as
much.  (The defined-score proviso is the code's own behavior, not a
simplification: an undefined NaN score sorts after every defined score in the
ascending argsort, hence ahead of all of them after the reversal, and
consumes a top_k slot before the threshold test drops it.) -/
theorem search_top_k_ranking (s : MemoryVectorStore) (embed : Str → List ℚ)
    (query : Str) (top_k : ℕ) (threshold : ℚ) (language category : Option Str) :
    (searchAnn s embed query top_k threshold language category).length ≤ top_k ∧
    (∀ r ∈ searchAnn s embed query top_k threshold language category,
      threshold ≤ r.similarity) ∧
    (searchAnn s embed query top_k threshold language category).Pairwise
      (fun a b => b.similarity < a.similarity ∨
        (b.similarity = a.similarity ∧ b.slot < a.slot)) ∧
    ((∀ j ∈ candidateSlots s language category,
        cosineSimilarity (embed query) (s.embeddings.getD j []) ≠ none) →
      ∀ i ∈ candidateSlots s language category, ∀ v : ℚ,
        cosineSimilarity (embed query) (s.embeddings.getD i []) = some v →
        threshold ≤ v →
        (∃ r ∈ searchAnn s embed query top_k threshold language category,
          r.slot = i) ∨
        ((searchAnn s embed query top_k threshold language category).length = top_k ∧
          ∀ r ∈ searchAnn s embed query top_k threshold language category,
            v ≤ r.similarity)) ∧
    search s embed query top_k threshold language category =
      (searchAnn s embed query top_k threshold language category).map
        (fun r => (r.chunk, r.similarity)) := by
  refine ⟨?_, ?_, ?_, ?_, rfl⟩
  · unfold searchAnn
    by_cases hempty : s.chunks.isEmpty
    · simp [hempty]
    · simp only [hempty, Bool.false_eq_true, if_false]
      set cand := candidateSlots s language category with hcand
      set sims := cand.map (fun i => cosineSimilarity (embed query) (s.embeddings.getD i []))
        with hsims
      by_cases hs2 : sims.isEmpty
      · simp [hs2]
      · simp only [hs2, Bool.false_eq_true, if_false]
        calc (List.filterMap _ _).length
            ≤ ((argsort _).reverse.take top_k).length := List.length_filterMap_le _ _
          _ ≤ top_k := List.length_take_le _ _
  · intro r hr
    exact (searchAnn_mem_score s embed query top_k threshold language category r hr).2
  · exact List.Pairwise.imp (fun h => h.1)
      (searchAnn_pairwise_strong s embed query top_k threshold language category)
  · intro hdef i hi v hv htv
    unfold searchAnn
    by_cases hempty : s.chunks.isEmpty
    · exfalso
      have hlt := candidateSlots_lt s language category i hi
      rw [List.isEmpty_iff] at hempty
      rw [hempty] at hlt
      simp at hlt
    · simp only [hempty, Bool.false_eq_true, if_false]
      set cand := candidateSlots s language category with hcand
      set sims := cand.map (fun j => cosineSimilarity (embed query) (s.embeddings.getD j []))
        with hsims
      by_cases hs2 : sims.isEmpty
      · exfalso
        rw [List.isEmpty_iff, hsims, List.map_eq_nil_iff] at hs2
        rw [hs2] at hi
        simp at hi
      · simp only [hs2, Bool.false_eq_true, if_false]
        obtain ⟨idx, hidxlt, hidxe⟩ := List.getElem_of_mem hi
        have hlen : sims.length = cand.length := by rw [hsims]; simp
        have hidxs : idx < sims.length := by omega
        have hsim_at : sims.getD idx none = some v := by
          rw [List.getD_eq_getElem _ _ hidxs]
          simp only [hsims, List.getElem_map]
          rw [hidxe]
          exact hv
        have hgetD : cand.getD idx 0 = i := by
          rw [List.getD_eq_getElem _ _ hidxlt]
          exact hidxe
        have hemit : emitResult s cand sims threshold idx =
            some ⟨i, s.chunks.getD i default, v⟩ := by
          unfold emitResult
          rw [hsim_at]
          simp only [htv, if_pos]
          rw [hgetD]
        by_cases hmem : idx ∈ (argsort sims).reverse.take top_k
        · left
          exact ⟨⟨i, s.chunks.getD i default, v⟩,
            List.mem_filterMap.mpr ⟨idx, hmem, hemit⟩, rfl⟩
        · right
          have hordmem : idx ∈ (argsort sims).reverse := by
            rw [List.mem_reverse]
            exact (argsort_perm sims).mem_iff.mpr (List.mem_range.mpr hidxs)
          have horder_len : top_k < (argsort sims).reverse.length := by
            by_contra hc
            push_neg at hc
            rw [List.take_of_length_le hc] at hmem
            exact hmem hordmem
          have hidx_drop : idx ∈ (argsort sims).reverse.drop top_k := by
            have hsplit := List.take_append_drop top_k (argsort sims).reverse
            have h2 : idx ∈ (argsort sims).reverse.take top_k ++
                (argsort sims).reverse.drop top_k := by
              rw [hsplit]
              exact hordmem
            rcases List.mem_append.mp h2 with h3 | h3
            · exact absurd h3 hmem
            · exact h3
          have hpw : ((argsort sims).reverse).Pairwise (fun a b => argRel sims b a) :=
            List.pairwise_reverse.mpr (argsort_sorted sims)
          rw [← List.take_append_drop top_k (argsort sims).reverse] at hpw
          have hcross := (List.pairwise_append.mp hpw).2.2
          have hscore : ∀ j ∈ (argsort sims).reverse.take top_k,
              ∃ w, sims.getD j none = some w ∧ v ≤ w ∧ threshold ≤ w := by
            intro j hj
            have hjord : j ∈ (argsort sims).reverse := List.mem_of_mem_take hj
            have hjlt : j < sims.length := by
              rw [List.mem_reverse] at hjord
              exact List.mem_range.mp ((argsort_perm sims).mem_iff.mp hjord)
            have hjc : j < cand.length := by omega
            have hjmem : cand.getD j 0 ∈ cand := by
              rw [List.getD_eq_getElem _ _ hjc]
              exact List.getElem_mem hjc
            have hjdef : cosineSimilarity (embed query)
                (s.embeddings.getD (cand.getD j 0) []) ≠ none :=
              hdef _ (hcand ▸ hjmem)
            have hjval : sims.getD j none =
                cosineSimilarity (embed query) (s.embeddings.getD (cand.getD j 0) []) := by
              rw [List.getD_eq_getElem _ _ hjlt, List.getD_eq_getElem _ _ hjc]
              simp only [hsims, List.getElem_map]
            rcases hw : sims.getD j none with _ | w
            · rw [hjval] at hw
              exact absurd hw hjdef
            · have hrel : argRel sims idx j := hcross j hj idx hidx_drop
              unfold argRel argRelB at hrel
              by_cases heq : sims.getD idx none = sims.getD j none
              · rw [hsim_at, hw] at heq
                have hveq := Option.some_inj.mp heq
                exact ⟨w, rfl, le_of_eq hveq, by rw [← hveq]; exact htv⟩
              · rw [if_neg heq] at hrel
                rw [hsim_at, hw] at hrel
                have hvlt : v < w := by simpa [nanStrictLt] using hrel
                exact ⟨w, rfl, le_of_lt hvlt, le_trans htv (le_of_lt hvlt)⟩
          constructor
          · have hall : ∀ j ∈ (argsort sims).reverse.take top_k,
                (emitResult s cand sims threshold j).isSome := by
              intro j hj
              obtain ⟨w, hw, _, htw⟩ := hscore j hj
              unfold emitResult
              rw [hw]
              simp [htw]
            rw [filterMap_length_of_forall_some hall]
            rw [List.length_take]
            omega
          · intro r hr
            obtain ⟨j, hj, hg⟩ := List.mem_filterMap.mp hr
            obtain ⟨w2, hw2, _, hgr, _⟩ := emitResult_eq_some hg
            obtain ⟨w, hw, hvw, _⟩ := hscore j hj
            rw [hw] at hw2
            have hww := Option.some_inj.mp hw2
            rw [hgr]
            simpa using (hww ▸ hvw)

/-- Claim C2 (counterexample): two chunks with identical embeddings score
exactly equal against the query, and search returns the later-inserted chunk
first, refuting the earlier-inserted-first tie rule. -/
theorem search_tie_order_counterexample :
    (search pairStore embedUnit ['q'] 2 0 none none).map (fun p => p.1.id) =
      [['b'], ['a']] ∧
    (search pairStore embedUnit ['q'] 2 0 none none).map (fun p => p.2) = [1, 1] := by
  decide

/-- Claim C2 witness: the ranking theorem evaluated on the two-chunk store,
including the selection conjunct at the first slot. -/
theorem search_top_k_ranking_witness :
    (searchAnn pairStore embedUnit ['q'] 2 0 none none).length ≤ 2 ∧
    (0 : ℚ) ≤ (⟨1, chunkB, 1⟩ : SlotResult).similarity ∧
    ((∃ r ∈ searchAnn pairStore embedUnit ['q'] 2 0 none none, r.slot = 0) ∨
      ((searchAnn pairStore embedUnit ['q'] 2 0 none none).length = 2 ∧
        ∀ r ∈ searchAnn pairStore embedUnit ['q'] 2 0 none none,
          (1 : ℚ) ≤ r.similarity)) :=
  ⟨(search_top_k_ranking pairStore embedUnit ['q'] 2 0 none none).1,
   (search_top_k_ranking pairStore embedUnit ['q'] 2 0 none none).2.1
     ⟨1, chunkB, 1⟩ (by decide),
   (search_top_k_ranking pairStore embedUnit ['q'] 2 0 none none).2.2.2.1
     (by decide) 0 (by decide) 1 (by decide) (by decide)⟩

/-- Raising the threshold removes no branch and only strengthens the emission
test, so every annotated result at the higher threshold is a result at the
lower one. -/
theorem searchAnn_threshold_subset (s : MemoryVectorStore) (embed : Str → List ℚ)
    (query : Str) (top_k : ℕ) (t1 t2 : ℚ) (language category : Option Str)
    (h1 : t1 ≤ t2) (r : SlotResult)
    (hr : r ∈ searchAnn s embed query top_k t2 language category) :
    r ∈ searchAnn s embed query top_k t1 language category := by
  unfold searchAnn at hr ⊢
  by_cases hempty : s.chunks.isEmpty
  · simp [hempty] at hr
  · simp only [hempty, Bool.false_eq_true, if_false] at hr ⊢
    set cand := candidateSlots s language category with hcand
    set sims := cand.map (fun i => cosineSimilarity (embed query) (s.embeddings.getD i []))
      with hsims
    by_cases hs2 : sims.isEmpty
    · simp [hs2] at hr
    · simp only [hs2, Bool.false_eq_true, if_false] at hr ⊢
      obtain ⟨idx, hidx, hg⟩ := List.mem_filterMap.mp hr
      refine List.mem_filterMap.mpr ⟨idx, hidx, ?_⟩
      unfold emitResult at hg ⊢
      rcases hv : sims.getD idx none with _ | v
      · rw [hv] at hg
        simp at hg
      · rw [hv] at hg
        by_cases ht : t2 ≤ v
        · have ht1 : t1 ≤ v := le_trans h1 ht
          simp only [ht, if_pos] at hg
          simp only [ht1, if_pos]
          exact hg
        · simp [ht] at hg

/-- Claim C7: for a fixed index, query and top_k at least the candidate count
(so that no candidate is truncated), raising the threshold from t1 to t2 only
shrinks the set of returned chunk ids. -/
theorem search_threshold_monotone (s : MemoryVectorStore) (embed : Str → List ℚ)
    (query : Str) (top_k : ℕ) (t1 t2 : ℚ) (language category : Option Str)
    (h1 : t1 ≤ t2) (h2 : (candidateSlots s language category).length ≤ top_k) :
    ∀ cid, cid ∈ (search s embed query top_k t2 language category).map (fun p => p.1.id) →
      cid ∈ (search s embed query top_k t1 language category).map (fun p => p.1.id) := by
  intro cid hcid
  unfold search at hcid ⊢
  rw [List.map_map] at hcid ⊢
  obtain ⟨r, hr, hre⟩ := List.mem_map.mp hcid
  exact List.mem_map.mpr
    ⟨r, searchAnn_threshold_subset s embed query top_k t1 t2 language category h1 r hr, hre⟩

/-- Claim C7 witness: with thresholds 0 and 1 on the two-chunk store, the id
of the second chunk is returned at the higher threshold and also at the lower. -/
theorem search_threshold_monotone_witness :
    ['b'] ∈ (search pairStore embedUnit ['q'] 2 0 none none).map (fun p => p.1.id) :=
  search_threshold_monotone pairStore embedUnit ['q'] 2 0 1 none none
    (by decide) (by decide) ['b'] (by decide)

/-! ### Multi-round merge and ranking (claim C1) -/

/-- Every annotated result holds the chunk stored at its slot. -/
theorem searchAnn_mem_chunk (s : MemoryVectorStore) (embed : Str → List ℚ)
    (query : Str) (top_k : ℕ) (threshold : ℚ) (language category : Option Str)
    (r : SlotResult) (hr : r ∈ searchAnn s embed query top_k threshold language category) :
    r.chunk = s.chunks.getD r.slot default := by
  unfold searchAnn at hr
  by_cases hempty : s.chunks.isEmpty
  · simp [hempty] at hr
  · simp only [hempty, Bool.false_eq_true, if_false] at hr
    set cand := candidateSlots s language category with hcand
    set sims := cand.map (fun i => cosineSimilarity (embed query) (s.embeddings.getD i []))
      with hsims
    by_cases hs2 : sims.isEmpty
    · simp [hs2] at hr
    · simp only [hs2, Bool.false_eq_true, if_false] at hr
      obtain ⟨idx, _, hg⟩ := List.mem_filterMap.mp hr
      obtain ⟨v, _, _, hgr, _⟩ := emitResult_eq_some hg
      rw [hgr]

/-- With pairwise-distinct stored chunk ids, the annotated search results have
pairwise-distinct chunk ids. -/
theorem searchAnn_ids_pairwise (s : MemoryVectorStore) (embed : Str → List ℚ)
    (query : Str) (top_k : ℕ) (threshold : ℚ) (language category : Option Str)
    (h : (s.chunks.map (fun c => c.id)).Nodup) :
    (searchAnn s embed query top_k threshold language category).Pairwise
      (fun a b => a.chunk.id ≠ b.chunk.id) := by
  refine List.Pairwise.imp_of_mem ?_
    (searchAnn_pairwise_strong s embed query top_k threshold language category)
  intro a b ha hb hrel
  obtain ⟨-, hne, hba, hbb⟩ := hrel
  have hca := searchAnn_mem_chunk s embed query top_k threshold language category a ha
  have hcb := searchAnn_mem_chunk s embed query top_k threshold language category b hb
  intro hid
  apply hne
  have hga : a.chunk.id = (s.chunks.map (fun c => c.id)).getD a.slot (default : DocumentChunk).id := by
    rw [hca, List.getD_eq_getElem _ _ hba,
      List.getD_eq_getElem _ _ (by simpa using hba)]
    simp
  have hgb : b.chunk.id = (s.chunks.map (fun c => c.id)).getD b.slot (default : DocumentChunk).id := by
    rw [hcb, List.getD_eq_getElem _ _ hbb,
      List.getD_eq_getElem _ _ (by simpa using hbb)]
    simp
  rw [hga, hgb] at hid
  rw [List.getD_eq_getElem _ _ (by simpa using hba),
    List.getD_eq_getElem _ _ (by simpa using hbb)] at hid
  exact (List.Nodup.getElem_inj_iff h).mp hid

/-- With pairwise-distinct stored chunk ids, search returns pairwise-distinct
chunk ids. -/
theorem search_ids_nodup (s : MemoryVectorStore) (embed : Str → List ℚ)
    (query : Str) (top_k : ℕ) (threshold : ℚ) (language category : Option Str)
    (h : (s.chunks.map (fun c => c.id)).Nodup) :
    ((search s embed query top_k threshold language category).map
      (fun p => p.1.id)).Nodup := by
  unfold search
  rw [List.map_map]
  exact List.pairwise_map.mpr
    (searchAnn_ids_pairwise s embed query top_k threshold language category h)

/-- A filterMap whose function keeps an element unless a test fires is the map
over the filtered list. -/
theorem filterMap_ite_none {α β : Type} (p : α → Prop) [DecidablePred p]
    (h : α → β) (l : List α) :
    l.filterMap (fun a => if p a then none else some (h a)) =
      (l.filter (fun a => !decide (p a))).map h := by
  induction l with
  | nil => rfl
  | cons x xs ih =>
    by_cases hx : p x
    · simp [hx, ih]
    · simp [hx, ih]

/-- The merge keeps pairwise-distinct ids when both passes do: the refined
block keeps its ids, the broad block is filtered to ids outside the refined
block, and ids inside the broad block are distinct already. -/
theorem mergedResults_ids_nodup (refined broad : List (DocumentChunk × ℚ))
    (h1 : (refined.map (fun p => p.1.id)).Nodup)
    (h2 : (broad.map (fun p => p.1.id)).Nodup) :
    ((mergedResults refined broad).map (fun r => r.chunk.id)).Nodup := by
  unfold mergedResults taggedRefined
  rw [List.map_append]
  rw [List.nodup_append]
  refine ⟨?_, ?_, ?_⟩
  · rw [List.map_map]
    exact h1
  · rw [filterMap_ite_none _ (fun p => (⟨p.1, p.2, 1⟩ : SearchResult)) broad]
    rw [List.map_map]
    exact List.Nodup.sublist (List.Sublist.map _ (List.filter_sublist _)) h2
  · intro cid hc1 hc2
    rw [filterMap_ite_none _ (fun p => (⟨p.1, p.2, 1⟩ : SearchResult)) broad] at hc2
    rw [List.map_map] at hc2
    obtain ⟨p, hp, hpe⟩ := List.mem_map.mp hc2
    have hfil := (List.mem_filter.mp hp).2
    simp only [Bool.not_eq_true', decide_eq_false_iff_not] at hfil
    apply hfil
    subst hpe
    rw [List.map_map] at hc1 ⊢
    simpa using hc1

/-- Position of an element of the merge determines its pass tag: the refined
block occupies the first positions, everything after is broad. -/
theorem mergedResults_round_iff (refined broad : List (DocumentChunk × ℚ))
    (i : ℕ) (x : SearchResult)
    (hx : (mergedResults refined broad).get? i = some x) :
    x.round = 2 ↔ i < refined.length := by
  unfold mergedResults taggedRefined at hx
  by_cases hi : i < refined.length
  · rw [List.get?_append (by simpa using hi)] at hx
    have hmem := List.get?_mem hx
    obtain ⟨p, _, hpe⟩ := List.mem_map.mp hmem
    constructor
    · intro _
      exact hi
    · intro _
      rw [← hpe]
  · rw [List.get?_append_right (by simpa using hi)] at hx
    have hmem := List.get?_mem hx
    obtain ⟨p, _, hpe⟩ := List.mem_filterMap.mp hmem
    constructor
    · intro h2
      by_cases hmm : p.1.id ∈ (refined.map (fun q => (⟨q.1, q.2, 2⟩ : SearchResult))).map
          (fun r => r.chunk.id)
      · rw [if_pos hmm] at hpe
        exact Option.noConfusion hpe
      · rw [if_neg hmm] at hpe
        have := Option.some_inj.mp hpe
        rw [← this] at h2
        simp at h2
    · intro h2
      exact absurd h2 hi

/-- The stable descending sort never moves an element satisfying a
front-segment predicate behind one that does not, on exact key ties. -/
theorem pyStableSortDesc_stable_pred (key : α → ℚ) (l : List α) (P : α → Prop)
    (n : ℕ) (hl : ∀ (i : ℕ) (x : α), l.get? i = some x → (P x ↔ i < n)) :
    (pyStableSortDesc key l).Pairwise (fun x y => key x = key y → P y → P x) := by
  unfold pyStableSortDesc
  refine List.Pairwise.map Prod.snd (fun p q hpq => hpq) ?_
  refine List.Pairwise.imp_of_mem ?_ (pyStableSortDesc_sorted_enum key l)
  intro p q hp hq hrel heq hPq
  have hpmem : p ∈ l.enum := ((List.perm_insertionSort _ _).mem_iff).mp hp
  have hqmem : q ∈ l.enum := ((List.perm_insertionSort _ _).mem_iff).mp hq
  have hpg : l.get? p.1 = some p.2 := by
    simpa using List.mem_enum_iff_get?.mp hpmem
  have hqg : l.get? q.1 = some q.2 := by
    simpa using List.mem_enum_iff_get?.mp hqmem
  have h1 := hl p.1 p.2 hpg
  have h2 := hl q.1 q.2 hqg
  unfold descRel descRelB at hrel
  rw [if_pos heq] at hrel
  have hle : p.1 ≤ q.1 := by simpa using hrel
  rw [h1]
  rw [h2] at hPq
  omega

/-- Claim C1 (amended): provided the stored chunk ids are pairwise distinct,
multi_round_search returns a permutation of the merge (all refined results,
then the broad results whose id is absent from the refined ids) whenever the
broad pass is nonempty, sorted descending by similarity, with pairwise
distinct chunk ids, and on exact score ties a broad-tagged result never
precedes a refined-tagged one. -/
theorem multi_round_search_ranking (s : MemoryVectorStore) (embed : Str → List ℚ)
    (query : Str) (bk rk : ℕ) (bt rt : ℚ)
    (h : (s.chunks.map (fun c => c.id)).Nodup) :
    (search s embed query bk bt none none ≠ [] →
      (multiRoundSearch s embed query bk rk bt rt).Perm
        (mergedResults (search s embed query rk rt none none)
          (search s embed query bk bt none none))) ∧
    (multiRoundSearch s embed query bk rk bt rt).Pairwise
      (fun a b => b.similarity ≤ a.similarity) ∧
    (multiRoundSearch s embed query bk rk bt rt).Pairwise
      (fun a b => a.chunk.id ≠ b.chunk.id) ∧
    (multiRoundSearch s embed query bk rk bt rt).Pairwise
      (fun a b => a.similarity = b.similarity → b.round = 2 → a.round = 2) := by
  unfold multiRoundSearch
  by_cases hb : (search s embed query bk bt none none).isEmpty
  · simp only [hb, if_true]
    refine ⟨?_, List.Pairwise.nil, List.Pairwise.nil, List.Pairwise.nil⟩
    intro hne
    exact absurd (List.isEmpty_iff.mp hb) hne
  · simp only [hb, Bool.false_eq_true, if_false]
    refine ⟨?_, ?_, ?_, ?_⟩
    · intro _
      exact pyStableSortDesc_perm _ _
    · exact pyStableSortDesc_desc _ _
    · have hperm := (pyStableSortDesc_perm (fun r : SearchResult => r.similarity)
        (mergedResults (search s embed query rk rt none none)
          (search s embed query bk bt none none))).map (fun r => r.chunk.id)
      have hnodup := mergedResults_ids_nodup
        (search s embed query rk rt none none)
        (search s embed query bk bt none none)
        (search_ids_nodup s embed query rk rt none none h)
        (search_ids_nodup s embed query bk bt none none h)
      have := hperm.nodup_iff.mpr hnodup
      exact List.pairwise_map.mp this
    · refine pyStableSortDesc_stable_pred _ _ (fun r : SearchResult => r.round = 2)
        (search s embed query rk rt none none).length ?_
      intro i x hx
      have := mergedResults_round_iff (search s embed query rk rt none none)
        (search s embed query bk bt none none) i x hx
      simpa using this

/-- Claim C1 (counterexample): a store holding the same chunk id in two slots
makes the refined pass return the id twice, and multi_round_search keeps both,
so the output ids are not pairwise distinct. -/
theorem multi_round_search_duplicate_ids_counterexample :
    ¬ ((multiRoundSearch dupStore embedUnit ['q'] 20 5 (3 / 10) (1 / 2)).Pairwise
      (fun a b => a.chunk.id ≠ b.chunk.id)) := by
  decide

/-- Claim C1 witness: the ranking theorem evaluated on the distinct-id store. -/
theorem multi_round_search_ranking_witness :
    (multiRoundSearch pairStore embedUnit ['q'] 20 5 (3 / 10) (1 / 2)).Pairwise
      (fun a b => a.chunk.id ≠ b.chunk.id) :=
  (multi_round_search_ranking pairStore embedUnit ['q'] 20 5 (3 / 10) (1 / 2)
    (by decide)).2.2.1

end Hulomind
